import Mathlib

set_option maxHeartbeats 1000000

/-! # Verification of the datapos CSV streaming core

Shallow embedding of `src/rust/datapos_tool_rust_csv_core/src/lib.rs`:
an incremental, chunk-fed CSV parsing session (`CsvSession`) built on the
external `csv-core` record tokenizer.

Modelling conventions: bytes are `Nat` (values `0..255`), byte buffers are
`List Nat`, Rust `String` is Lean `String`, and fallible operations return
`Except String` (the `JsValue` error payload is reduced to its message
string).  The `record_buffer` and `field_ends` vectors of the Rust code are
used only as per-call output windows whose *contents* are copied out after
every tokenizer call; hence only their lengths (the capacities handed to the
tokenizer) are tracked, as the fields `obuf` and `ebuf`. -/

/-- Outcome of one tokenizer call, mirroring `csv_core::ReadRecordResult`. -/
inductive ReadRecordResult
  | Record
  | InputEmpty
  | OutputFull
  | OutputEndsFull
  | End
deriving DecidableEq, Repr

/-- Result bundle of one tokenizer call: outcome, number of input bytes
consumed, decoded field bytes written during the call, and field-end offsets
written during the call (offsets are cumulative into the record assembled so
far across calls, matching the tokenizer's internal `output_pos` tracking). -/
structure TokResult where
  res : ReadRecordResult
  nin : Nat
  outB : List Nat
  endsB : List Nat
deriving DecidableEq, Repr

/-- Modelled from the spec: the record tokenizer (`csv_core::Reader::read_record`)
is an external collaborator, present in the repository only through its call
site in `drain_records`; the spec fixes its interface in section 4.1.  This
models one call on an input span, for unquoted fields with delimiter byte
`delim` and the LF byte (10) as record terminator:

* a content byte is appended to the output if the output capacity `outCap`
  admits it, otherwise the call stops with `OutputFull` (the byte is not
  consumed; the caller grows the buffer and retries at the same position);
* a delimiter ends a field: its cumulative end offset `pos + nout` is
  recorded if the ends capacity `endsCap` admits it, else `OutputEndsFull`;
* an LF ends the record (recording the final field end) and yields `Record`;
  an LF while still at the start of a record (nothing of the record seen
  yet, `atStart`) is consumed without producing a record — blank lines are
  skipped by the tokenizer;
* exhausted input yields `InputEmpty` with every input byte consumed.

`pos` is the tokenizer's record-level output position carried over from
previous calls on the same record; `nout`/`nend` count bytes and ends
already written during the current call. -/
def read_record_go (delim outCap endsCap pos : Nat) :
    List Nat → Nat → Nat → Bool → TokResult
  | [], _, _, _ => ⟨.InputEmpty, 0, [], []⟩
  | b :: rest, nout, nend, atStart =>
    if b = 10 then
      if atStart then
        let r := read_record_go delim outCap endsCap pos rest nout nend true
        ⟨r.res, r.nin + 1, r.outB, r.endsB⟩
      else if endsCap ≤ nend then ⟨.OutputEndsFull, 0, [], []⟩
      else ⟨.Record, 1, [], [pos + nout]⟩
    else if b = delim then
      if endsCap ≤ nend then ⟨.OutputEndsFull, 0, [], []⟩
      else
        let r := read_record_go delim outCap endsCap pos rest nout (nend + 1) false
        ⟨r.res, r.nin + 1, r.outB, (pos + nout) :: r.endsB⟩
    else
      if outCap ≤ nout then ⟨.OutputFull, 0, [], []⟩
      else
        let r := read_record_go delim outCap endsCap pos rest (nout + 1) nend false
        ⟨r.res, r.nin + 1, b :: r.outB, r.endsB⟩

/-- UTF-8 validation and decoding of a byte sequence, as performed by
`std::str::from_utf8` in `build_row`: strict UTF-8 (continuation ranges,
no overlong encodings, no surrogates, at most U+10FFFF). -/
def isCont (b : Nat) : Bool := 0x80 ≤ b && b ≤ 0xBF

def utf8Decode : List Nat → Option (List Char)
  | [] => some []
  | b :: rest =>
    if b ≤ 0x7F then
      (utf8Decode rest).map (fun cs => Char.ofNat b :: cs)
    else if 0xC2 ≤ b && b ≤ 0xDF then
      match rest with
      | b2 :: rest2 =>
        if isCont b2 then
          (utf8Decode rest2).map
            (fun cs => Char.ofNat ((b - 0xC0) * 0x40 + (b2 - 0x80)) :: cs)
        else none
      | [] => none
    else if 0xE0 ≤ b && b ≤ 0xEF then
      match rest with
      | b2 :: b3 :: rest3 =>
        if (if b = 0xE0 then 0xA0 ≤ b2 && b2 ≤ 0xBF
            else if b = 0xED then 0x80 ≤ b2 && b2 ≤ 0x9F
            else isCont b2) && isCont b3 then
          (utf8Decode rest3).map
            (fun cs =>
              Char.ofNat ((b - 0xE0) * 0x1000 + (b2 - 0x80) * 0x40 + (b3 - 0x80)) :: cs)
        else none
      | _ => none
    else if 0xF0 ≤ b && b ≤ 0xF4 then
      match rest with
      | b2 :: b3 :: b4 :: rest4 =>
        if (if b = 0xF0 then 0x90 ≤ b2 && b2 ≤ 0xBF
            else if b = 0xF4 then 0x80 ≤ b2 && b2 ≤ 0x8F
            else isCont b2) && isCont b3 && isCont b4 then
          (utf8Decode rest4).map
            (fun cs =>
              Char.ofNat ((b - 0xF0) * 0x40000 + (b2 - 0x80) * 0x1000 +
                (b3 - 0x80) * 0x40 + (b4 - 0x80)) :: cs)
        else none
      | _ => none
    else none

/-- Helper for `build_row`: materialise the fields of `field_ends`, each field
spanning `record[start..end]`, decoding each span as UTF-8.
Mirrors the loop of `build_row` in `lib.rs`. -/
def build_row_go (record : List Nat) : Nat → List Nat → Except String (List String)
  | _, [] => .ok []
  | start, e :: rest =>
    match utf8Decode ((record.drop start).take (e - start)) with
    | none => .error ("UTF-8 error")
    | some cs =>
      match build_row_go record e rest with
      | .error err => .error err
      | .ok row => .ok (String.mk cs :: row)

/-- `build_row` of `lib.rs`: turn accumulated record bytes and cumulative
field-end offsets into a row of UTF-8 strings; the first invalid field
aborts with the decoding error. -/
def build_row (record : List Nat) (field_ends : List Nat) : Except String (List String) :=
  build_row_go record 0 field_ends

/-- Unicode-whitespace trim of both ends of a character list, modelling
Rust's `str::trim`. -/
def trimChars (cs : List Char) : List Char :=
  ((cs.dropWhile Char.isWhitespace).reverse.dropWhile Char.isWhitespace).reverse

/-- `str::trim` lifted to `String`. -/
def strTrim (s : String) : String := String.mk (trimChars s.data)

/-- `normalize_field_name` of `lib.rs`: trim, lowercase, then replace every
character that is not alphanumeric and not an underscore by an underscore. -/
def normalize_field_name (field : String) : String :=
  String.mk (((trimChars field.data).map Char.toLower).map
    (fun c => if c.isAlphanum || c == '_' then c else '_'))

/-- `summarize_row` of `lib.rs`: `""` when every field trims to empty,
`"non-empty"` as soon as one field has non-whitespace content. -/
def summarize_row (row : List String) : String :=
  match row.find? (fun s => !(strTrim s).isEmpty) with
  | none => ("")
  | some _ => ("non-empty")

/-- Growth of the record scratch buffer on `OutputFull`
(`record_buffer.resize(len.max(out_written + 1024) * 2, 0)`). -/
def growOut (len out_written : Nat) : Nat := (max len (out_written + 1024)) * 2

/-- Growth of the field-ends buffer on `OutputEndsFull`
(`field_ends.resize(len.max(ends_written + 16) * 2, 0)`). -/
def growEnds (len ends_written : Nat) : Nat := (max len (ends_written + 16)) * 2

/-- The state threaded through the `drain_records` loop: tokenizer output
position, capacities of the two growable buffers, the working accumulators
`current_record` / `current_field_ends`, and the header state. -/
structure DrainSt where
  pos : Nat
  obuf : Nat
  ebuf : Nat
  cur : List Nat
  curEnds : List Nat
  headersSkipped : Bool
  normHeaders : Option (List String)
deriving DecidableEq, Repr

/-- The `while offset < self.buffer.len()` loop of `drain_records`, as a
function of the unconsumed suffix `rest` of the byte buffer.  `fuel` bounds
the number of iterations; `drain_records` supplies `rest.length + 1`, which
is shown sufficient whenever both capacities are positive (every iteration
then consumes at least one input byte).  Returns the final loop state, the
data rows pushed to `output`, and the bytes left unconsumed. -/
def drainGo (d : Nat) (hH : Bool) :
    Nat → DrainSt → List Nat → Except String (DrainSt × List (List String) × List Nat)
  | 0, st, rest => .ok (st, [], rest)
  | fuel + 1, st, rest =>
    match rest with
    | [] => .ok (st, [], [])
    | b :: tail =>
      let r := read_record_go d st.obuf st.ebuf st.pos (b :: tail) 0 0
        (st.cur.isEmpty && st.curEnds.isEmpty)
      let cur' := st.cur ++ r.outB
      let ends' := st.curEnds ++ r.endsB
      let rest' := (b :: tail).drop r.nin
      match r.res with
      | .Record =>
        match build_row cur' ends' with
        | .error e => .error e
        | .ok row =>
          if hH && !st.headersSkipped then
            drainGo d hH fuel
              { st with pos := 0, cur := [], curEnds := [], headersSkipped := true,
                        normHeaders := some (row.map normalize_field_name) } rest'
          else if (summarize_row row).isEmpty then
            drainGo d hH fuel { st with pos := 0, cur := [], curEnds := [] } rest'
          else
            match drainGo d hH fuel { st with pos := 0, cur := [], curEnds := [] } rest' with
            | .error e => .error e
            | .ok (st2, rows, rem) => .ok (st2, row :: rows, rem)
      | .InputEmpty =>
        .ok ({ st with pos := st.pos + r.outB.length, cur := cur', curEnds := ends' }, [], rest')
      | .End =>
        .ok ({ st with pos := st.pos + r.outB.length, cur := cur', curEnds := ends' }, [], rest')
      | .OutputFull =>
        drainGo d hH fuel
          { st with pos := st.pos + r.outB.length, cur := cur', curEnds := ends',
                    obuf := growOut st.obuf r.outB.length } rest'
      | .OutputEndsFull =>
        drainGo d hH fuel
          { st with pos := st.pos + r.outB.length, cur := cur', curEnds := ends',
                    ebuf := growEnds st.ebuf r.endsB.length } rest'

/-- The `CsvSession` struct of `lib.rs`.  The `csv_core::Reader` is the pair
of the configured delimiter and its record-level output position `pos`
(plus its record-start flag, recovered as emptiness of the pending
accumulators); `obuf`/`ebuf` are the lengths of `record_buffer` and
`field_ends`; the remaining fields are verbatim. -/
structure CsvSession where
  buffer : List Nat
  obuf : Nat
  ebuf : Nat
  pos : Nat
  pend : List Nat
  pendEnds : List Nat
  delim : Nat
  hasHeaders : Bool
  headersSkipped : Bool
  normHeaders : Option (List String)
deriving DecidableEq, Repr

/-- `CsvSession::new`: delimiter and header flag fixed at construction,
1024-byte record scratch, 32-entry field-ends buffer. -/
def CsvSession.new (delimiter : Nat) (has_headers : Bool) : CsvSession :=
  { buffer := [], obuf := 1024, ebuf := 32, pos := 0, pend := [], pendEnds := [],
    delim := delimiter, hasHeaders := has_headers, headersSkipped := false,
    normHeaders := none }

/-- `CsvSession::drain_records`: splice the pending record into fresh working
accumulators, run the drive loop over the byte buffer, trim the consumed
prefix (clearing it entirely on the final flush), and save the working
accumulators back as the pending record. -/
def CsvSession.drain_records (s : CsvSession) (final_flush : Bool) :
    Except String (List (List String) × CsvSession) :=
  let st0 : DrainSt :=
    { pos := s.pos, obuf := s.obuf, ebuf := s.ebuf, cur := s.pend,
      curEnds := s.pendEnds, headersSkipped := s.headersSkipped,
      normHeaders := s.normHeaders }
  match drainGo s.delim s.hasHeaders (s.buffer.length + 1) st0 s.buffer with
  | .error e => .error e
  | .ok (st', rows, rem) =>
    .ok (rows,
      { s with buffer := if final_flush then [] else rem,
               obuf := st'.obuf, ebuf := st'.ebuf, pos := st'.pos,
               pend := st'.cur, pendEnds := st'.curEnds,
               headersSkipped := st'.headersSkipped,
               normHeaders := st'.normHeaders })

/-- `CsvSession::push_bytes`: append the chunk to the byte buffer and drain. -/
def CsvSession.push_bytes (s : CsvSession) (data : List Nat) :
    Except String (List (List String) × CsvSession) :=
  CsvSession.drain_records { s with buffer := s.buffer ++ data } false

/-- `CsvSession::finish_rows`: append a trailing newline when the byte buffer
is non-empty and does not already end with one, then drain with
`final_flush = true`. -/
def CsvSession.finish_rows (s : CsvSession) :
    Except String (List (List String) × CsvSession) :=
  let s' := if s.buffer ≠ [] ∧ s.buffer.getLast? ≠ some 10
    then { s with buffer := s.buffer ++ [10] } else s
  CsvSession.drain_records s' true

/-- Feed a list of chunks by successive `push_bytes` calls, concatenating the
rows they return; the first error aborts.  This is the pumping loop of
`stream_csv` / `process_csv_chunks`. -/
def pushAll (s : CsvSession) : List (List Nat) → Except String (List (List String) × CsvSession)
  | [] => .ok ([], s)
  | c :: cs =>
    match s.push_bytes c with
    | .error e => .error e
    | .ok (rows, s') =>
      match pushAll s' cs with
      | .error e => .error e
      | .ok (rows', s'') => .ok (rows ++ rows', s'')

/-- A full streaming run: push every chunk, then finalize once, returning the
concatenation of all emitted data rows (the observable row sequence of the
`stream_csv` driver). -/
def runSession (s : CsvSession) (chunks : List (List Nat)) :
    Except String (List (List String)) :=
  match pushAll s chunks with
  | .error e => .error e
  | .ok (rows, s') =>
    match s'.finish_rows with
    | .error e => .error e
    | .ok (rows', _) => .ok (rows ++ rows')

/-- ASCII bytes of a string, for writing concrete inputs. -/
def strBytes (s : String) : List Nat := s.data.map Char.toNat

/-- Reference tokenization of a byte sequence: the per-byte machine that the
capacity-juggling drive loop implements.  From working accumulators
`(cur, ends)`, an LF completes the record `(cur, ends ++ [cur.length])`
(or is skipped when nothing of a record has been seen), a delimiter records
a field end, and any other byte is record content.  Returns the completed
raw records in order together with the final accumulators. -/
def tokenize (d : Nat) : List Nat → List Nat → List Nat →
    List (List Nat × List Nat) × List Nat × List Nat
  | [], cur, ends => ([], cur, ends)
  | b :: rest, cur, ends =>
    if b = 10 then
      if cur.isEmpty && ends.isEmpty then
        tokenize d rest [] []
      else
        let r := tokenize d rest [] []
        ((cur, ends ++ [cur.length]) :: r.1, r.2)
    else if b = d then
      tokenize d rest cur (ends ++ [cur.length])
    else
      tokenize d rest (cur ++ [b]) ends

/-- Reference row pipeline: materialise each raw record with `build_row`,
capture the first completed record as headers when header mode is on and no
header was captured yet, and otherwise emit it as a data row unless every
field trims to empty.  Mirrors the `ReadRecordResult::Record` arm of
`drain_records`. -/
def processRecs (hH : Bool) : Bool → Option (List String) → List (List Nat × List Nat) →
    Except String (Bool × Option (List String) × List (List String))
  | hs, nh, [] => .ok (hs, nh, [])
  | hs, nh, (c, e) :: rest =>
    match build_row c e with
    | .error err => .error err
    | .ok row =>
      if hH && !hs then
        processRecs hH true (some (row.map normalize_field_name)) rest
      else
        match processRecs hH hs nh rest with
        | .error err => .error err
        | .ok (hs', nh', rows) =>
          .ok (hs', nh', if (summarize_row row).isEmpty then rows else row :: rows)

/-- Boundary-list invariant of claim C3: field ends are non-decreasing
starting from 0 and bounded by the accumulated scratch length, so each field
slice `record[start..end]` taken by `build_row` satisfies
`start ≤ end ≤ record.length`. -/
def ends_in_bounds (record ends : List Nat) : Prop :=
  List.Chain (· ≤ ·) 0 ends ∧ ∀ x ∈ ends, x ≤ record.length

/-- The capacity-independent observables of a session: everything except the
two buffer capacities. -/
def sessionObs (s : CsvSession) : List Nat × Nat × List Nat × List Nat × Nat × Bool ×
    Bool × Option (List String) :=
  (s.buffer, s.pos, s.pend, s.pendEnds, s.delim, s.hasHeaders, s.headersSkipped,
    s.normHeaders)

/-- Finalize a session, then push a further chunk into it, returning the rows
that second push produces (claim C7 is about this composition). -/
def pushAfterFinish (s : CsvSession) (data : List Nat) :
    Except String (List (List String)) :=
  match s.finish_rows with
  | .error e => .error e
  | .ok (_, s') => (s'.push_bytes data).map (fun p => p.1)

/-! ## Tokenizer lemmas -/

/-- Basic accounting facts about one tokenizer call: it never reports `End`
on non-empty input (and `InputEmpty` consumes everything), every `Record`
consumes at least the terminator byte, and a capacity outcome can only occur
once the corresponding capacity has actually been exhausted by writes. -/
theorem rr_props (delim outCap endsCap pos : Nat) (input : List Nat) :
    ∀ nout nend atStart,
    ((read_record_go delim outCap endsCap pos input nout nend atStart).res ≠ .End) ∧
    ((read_record_go delim outCap endsCap pos input nout nend atStart).res = .Record →
      1 ≤ (read_record_go delim outCap endsCap pos input nout nend atStart).nin) ∧
    ((read_record_go delim outCap endsCap pos input nout nend atStart).res = .InputEmpty →
      (read_record_go delim outCap endsCap pos input nout nend atStart).nin = input.length) ∧
    ((read_record_go delim outCap endsCap pos input nout nend atStart).res = .OutputFull →
      outCap ≤ (read_record_go delim outCap endsCap pos input nout nend atStart).nin + nout) ∧
    ((read_record_go delim outCap endsCap pos input nout nend atStart).res = .OutputEndsFull →
      endsCap ≤ (read_record_go delim outCap endsCap pos input nout nend atStart).nin + nend) := by
  induction input with
  | nil =>
    intro nout nend atStart
    simp [read_record_go]
  | cons b rest ih =>
    intro nout nend atStart
    simp only [read_record_go]
    split
    · split
      · -- LF at record start: skipped, recurse
        obtain ⟨h1, h2, h3, h4, h5⟩ := ih nout nend true
        refine ⟨h1, ?_, ?_, ?_, ?_⟩
        · intro h
          show (1:Nat) ≤ (read_record_go delim outCap endsCap pos rest nout nend true).nin + 1
          omega
        · intro h
          have h3' := h3 h
          show (read_record_go delim outCap endsCap pos rest nout nend true).nin + 1 =
            rest.length + 1
          omega
        · intro h
          have h4' := h4 h
          show outCap ≤
            (read_record_go delim outCap endsCap pos rest nout nend true).nin + 1 + nout
          omega
        · intro h
          have h5' := h5 h
          show endsCap ≤
            (read_record_go delim outCap endsCap pos rest nout nend true).nin + 1 + nend
          omega
      · split
        · -- ends buffer exhausted at the terminator
          rename_i hc
          refine ⟨?_, ?_, ?_, ?_, ?_⟩ <;> intro h
          · simp at h
          · simp at h
          · simp at h
          · simp at h
          · show endsCap ≤ 0 + nend
            omega
        · -- record completed at the terminator
          refine ⟨?_, ?_, ?_, ?_, ?_⟩ <;> intro h
          · simp at h
          · show (1:Nat) ≤ 1
            omega
          · simp at h
          · simp at h
          · simp at h
    · split
      · split
        · -- ends buffer exhausted at a delimiter
          rename_i hc
          refine ⟨?_, ?_, ?_, ?_, ?_⟩ <;> intro h
          · simp at h
          · simp at h
          · simp at h
          · simp at h
          · show endsCap ≤ 0 + nend
            omega
        · -- delimiter consumed: recurse with one more end written
          obtain ⟨h1, h2, h3, h4, h5⟩ := ih nout (nend + 1) false
          refine ⟨h1, ?_, ?_, ?_, ?_⟩
          · intro h
            show (1:Nat) ≤
              (read_record_go delim outCap endsCap pos rest nout (nend + 1) false).nin + 1
            omega
          · intro h
            have h3' := h3 h
            show (read_record_go delim outCap endsCap pos rest nout (nend + 1) false).nin + 1 =
              rest.length + 1
            omega
          · intro h
            have h4' := h4 h
            show outCap ≤
              (read_record_go delim outCap endsCap pos rest nout (nend + 1) false).nin + 1 + nout
            omega
          · intro h
            have h5' := h5 h
            show endsCap ≤
              (read_record_go delim outCap endsCap pos rest nout (nend + 1) false).nin + 1 + nend
            omega
      · split
        · -- output buffer exhausted at a content byte
          rename_i hc
          refine ⟨?_, ?_, ?_, ?_, ?_⟩ <;> intro h
          · simp at h
          · simp at h
          · simp at h
          · show outCap ≤ 0 + nout
            omega
          · simp at h
        · -- content byte consumed: recurse with one more byte written
          obtain ⟨h1, h2, h3, h4, h5⟩ := ih (nout + 1) nend false
          refine ⟨h1, ?_, ?_, ?_, ?_⟩
          · intro h
            show (1:Nat) ≤
              (read_record_go delim outCap endsCap pos rest (nout + 1) nend false).nin + 1
            omega
          · intro h
            have h3' := h3 h
            show (read_record_go delim outCap endsCap pos rest (nout + 1) nend false).nin + 1 =
              rest.length + 1
            omega
          · intro h
            have h4' := h4 h
            show outCap ≤
              (read_record_go delim outCap endsCap pos rest (nout + 1) nend false).nin + 1 + nout
            omega
          · intro h
            have h5' := h5 h
            show endsCap ≤
              (read_record_go delim outCap endsCap pos rest (nout + 1) nend false).nin + 1 + nend
            omega

/-- Correspondence between one tokenizer call and the reference byte machine
`tokenize`: starting from accumulated record state `(C, E)` (with the
tokenizer's carried output position matching `C`), a `Record` outcome means
the consumed input prefix tokenizes to exactly the one completed record
`(C ++ outB, E ++ endsB)` with the accumulators reset; `InputEmpty` means the
whole input tokenizes to no completed record with the accumulators extended
by the call's writes; a capacity outcome likewise extends the accumulators
over the consumed prefix without completing a record. -/
theorem rr_tok (d oc ec p : Nat) (input : List Nat) :
    ∀ nout nend (C E : List Nat), C.length = p + nout →
    ∀ r, read_record_go d oc ec p input nout nend (C.isEmpty && E.isEmpty) = r →
    (r.res = .Record →
      tokenize d (input.take r.nin) C E = ([(C ++ r.outB, E ++ r.endsB)], [], [])) ∧
    (r.res = .InputEmpty →
      tokenize d input C E = ([], C ++ r.outB, E ++ r.endsB)) ∧
    (r.res = .OutputFull ∨ r.res = .OutputEndsFull →
      tokenize d (input.take r.nin) C E = ([], C ++ r.outB, E ++ r.endsB)) := by
  induction input with
  | nil =>
    intro nout nend C E hlen r hr
    simp only [read_record_go] at hr
    subst hr
    refine ⟨?_, ?_, ?_⟩
    · intro h; simp at h
    · intro h; simp [tokenize]
    · intro h; rcases h with h | h <;> simp at h
  | cons b rest ih =>
    intro nout nend C E hlen r hr
    simp only [read_record_go] at hr
    split at hr
    · rename_i hb
      split at hr
      · -- LF at record start: C and E must be empty; line is skipped
        rename_i hse
        rw [Bool.and_eq_true, List.isEmpty_iff, List.isEmpty_iff] at hse
        obtain ⟨hC, hE⟩ := hse
        subst hC; subst hE; subst hb; subst hr
        obtain ⟨IH1, IH2, IH3⟩ :=
          ih nout nend [] [] hlen (read_record_go d oc ec p rest nout nend true) rfl
        refine ⟨?_, ?_, ?_⟩
        · intro h
          have hrec := IH1 h
          simpa [tokenize, List.take_succ_cons] using hrec
        · intro h
          have hrec := IH2 h
          simpa [tokenize] using hrec
        · intro h
          have hrec := IH3 h
          simpa [tokenize, List.take_succ_cons] using hrec
      · rename_i hse
        rw [Bool.not_eq_true] at hse
        split at hr
        · -- ends capacity exhausted at the terminator
          subst hb; subst hr
          refine ⟨?_, ?_, ?_⟩
          · intro h; simp at h
          · intro h; simp at h
          · intro h; simp [tokenize]
        · -- record completes at the terminator
          subst hb; subst hr
          refine ⟨?_, ?_, ?_⟩
          · intro h
            simp [tokenize, hse, hlen, List.take_succ_cons]
          · intro h; simp at h
          · intro h; rcases h with h | h <;> simp at h
    · rename_i hb
      split at hr
      · rename_i hbd
        split at hr
        · -- ends capacity exhausted at a delimiter
          subst hr
          refine ⟨?_, ?_, ?_⟩
          · intro h; simp at h
          · intro h; simp at h
          · intro h; simp [tokenize]
        · -- delimiter consumed: one more field end recorded
          subst hr
          have hd10 : ¬ d = 10 := by rw [← hbd]; exact hb
          have hflag : (C.isEmpty && (E ++ [C.length]).isEmpty) = false := by simp
          have hrr : read_record_go d oc ec p rest nout (nend + 1)
              (C.isEmpty && (E ++ [C.length]).isEmpty) =
              read_record_go d oc ec p rest nout (nend + 1) false := by rw [hflag]
          obtain ⟨IH1, IH2, IH3⟩ := ih nout (nend + 1) C (E ++ [C.length]) hlen _ hrr
          refine ⟨?_, ?_, ?_⟩
          · intro h
            have hrec := IH1 h
            simpa [tokenize, hb, hbd, hd10, hlen, List.take_succ_cons] using hrec
          · intro h
            have hrec := IH2 h
            simpa [tokenize, hb, hbd, hd10, hlen] using hrec
          · intro h
            have hrec := IH3 h
            simpa [tokenize, hb, hbd, hd10, hlen, List.take_succ_cons] using hrec
      · rename_i hbd
        split at hr
        · -- output capacity exhausted at a content byte
          subst hr
          refine ⟨?_, ?_, ?_⟩
          · intro h; simp at h
          · intro h; simp at h
          · intro h; simp [tokenize]
        · -- content byte appended to the record
          subst hr
          have hflag : ((C ++ [b]).isEmpty && E.isEmpty) = false := by simp
          have hrr : read_record_go d oc ec p rest (nout + 1) nend
              ((C ++ [b]).isEmpty && E.isEmpty) =
              read_record_go d oc ec p rest (nout + 1) nend false := by rw [hflag]
          have hlen' : (C ++ [b]).length = p + (nout + 1) := by
            simp only [List.length_append, List.length_cons, List.length_nil, hlen]
            omega
          obtain ⟨IH1, IH2, IH3⟩ := ih (nout + 1) nend (C ++ [b]) E hlen' _ hrr
          refine ⟨?_, ?_, ?_⟩
          · intro h
            have hrec := IH1 h
            simpa [tokenize, hb, hbd, List.take_succ_cons] using hrec
          · intro h
            have hrec := IH2 h
            simpa [tokenize, hb, hbd] using hrec
          · intro h
            have hrec := IH3 h
            simpa [tokenize, hb, hbd, List.take_succ_cons] using hrec

/-- `tokenize` over a concatenation is `tokenize` of the first part followed
by `tokenize` of the second part from the carried accumulators. -/
theorem tokenize_append (d : Nat) (a : List Nat) :
    ∀ (b : List Nat) (cur ends : List Nat),
    tokenize d (a ++ b) cur ends =
      ((tokenize d a cur ends).1 ++
        (tokenize d b (tokenize d a cur ends).2.1 (tokenize d a cur ends).2.2).1,
       (tokenize d b (tokenize d a cur ends).2.1 (tokenize d a cur ends).2.2).2) := by
  induction a with
  | nil => intro b cur ends; simp [tokenize]
  | cons x xs ih =>
    intro b cur ends
    simp only [List.cons_append, tokenize]
    split
    · split
      · exact ih b [] []
      · simp [ih b [] []]
    · split
      · exact ih b cur (ends ++ [cur.length])
      · exact ih b (cur ++ [x]) ends

/-- `processRecs` over a concatenation threads the header state through the
first part and concatenates the emitted rows. -/
theorem processRecs_append (hH : Bool) (r1 : List (List Nat × List Nat)) :
    ∀ hs nh (r2 : List (List Nat × List Nat)),
    processRecs hH hs nh (r1 ++ r2) =
      (match processRecs hH hs nh r1 with
       | .error e => .error e
       | .ok (hs', nh', rows) =>
         match processRecs hH hs' nh' r2 with
         | .error e => .error e
         | .ok (hs'', nh'', rows') => .ok (hs'', nh'', rows ++ rows')) := by
  induction r1 with
  | nil =>
    intro hs nh r2
    simp only [List.nil_append, processRecs]
    cases h : processRecs hH hs nh r2 with
    | error e => simp
    | ok v => obtain ⟨hs', nh', rows⟩ := v; simp
  | cons ce rest ih =>
    intro hs nh r2
    obtain ⟨c, e⟩ := ce
    simp only [List.cons_append, processRecs, List.append_eq]
    cases hbr : build_row c e with
    | error err => simp
    | ok row =>
      by_cases hhd : (hH && !hs) = true
      · simp only [hhd, if_true]
        rw [ih]
      · simp only [Bool.not_eq_true] at hhd
        simp only [hhd, Bool.false_eq_true, if_false]
        rw [ih]
        cases h1 : processRecs hH hs nh rest with
        | error e1 => simp
        | ok v1 =>
          obtain ⟨hs1, nh1, rows1⟩ := v1
          cases h2 : processRecs hH hs1 nh1 r2 with
          | error e2 => simp [h2]
          | ok v2 =>
            obtain ⟨hs2, nh2, rows2⟩ := v2
            by_cases hsum : (summarize_row row).isEmpty = true <;> simp [hsum, h2]

/-- Once the header has been captured, `processRecs` never changes the header
state again: every later record is a data candidate. -/
theorem processRecs_hs_true (hH : Bool) (recs : List (List Nat × List Nat)) :
    ∀ nh hs' nh' rows, processRecs hH true nh recs = .ok (hs', nh', rows) →
    hs' = true ∧ nh' = nh := by
  induction recs with
  | nil =>
    intro nh hs' nh' rows h
    simp only [processRecs, Except.ok.injEq, Prod.mk.injEq] at h
    exact ⟨h.1.symm, h.2.1.symm⟩
  | cons ce rest ih =>
    intro nh hs' nh' rows h
    obtain ⟨c, e⟩ := ce
    simp only [processRecs] at h
    cases hbr : build_row c e with
    | error err => rw [hbr] at h; simp at h
    | ok row =>
      rw [hbr] at h
      cases h1 : processRecs hH true nh rest with
      | error e1 =>
        rw [h1] at h
        simp at h
      | ok v1 =>
        obtain ⟨hs1, nh1, rows1⟩ := v1
        rw [h1] at h
        simp only [Bool.not_true, Bool.and_false, Bool.false_eq_true, if_false,
          Except.ok.injEq, Prod.mk.injEq] at h
        obtain ⟨hx, hy⟩ := ih nh hs1 nh1 rows1 h1
        exact ⟨h.1.symm.trans hx, h.2.1.symm.trans hy⟩

/-- The drive loop computes exactly the reference pipeline: with positive
buffer capacities, fuel exceeding the input length, and the tokenizer's
carried output position matching the accumulated scratch, `drainGo` consumes
the whole input, grows the capacities monotonically, and returns precisely
`processRecs` of the reference tokenization, with the final accumulators of
`tokenize` saved as the new pending state. -/
theorem drainGo_spec (d : Nat) (hH : Bool) :
    ∀ (fuel : Nat) (st : DrainSt) (rest : List Nat),
    rest.length < fuel → 0 < st.obuf → 0 < st.ebuf → st.pos = st.cur.length →
    ∃ ob eb, st.obuf ≤ ob ∧ st.ebuf ≤ eb ∧
      drainGo d hH fuel st rest =
        (match processRecs hH st.headersSkipped st.normHeaders
            (tokenize d rest st.cur st.curEnds).1 with
         | .error e => .error e
         | .ok (hs', nh', rows) =>
           .ok ({ pos := (tokenize d rest st.cur st.curEnds).2.1.length, obuf := ob,
                  ebuf := eb, cur := (tokenize d rest st.cur st.curEnds).2.1,
                  curEnds := (tokenize d rest st.cur st.curEnds).2.2,
                  headersSkipped := hs', normHeaders := nh' }, rows, [])) := by
  intro fuel
  induction fuel with
  | zero => intro st rest h _ _ _; exact absurd h (Nat.not_lt_zero _)
  | succ fuel ih =>
    intro st rest hfuel hob heb hpos
    obtain ⟨pos, obuf, ebuf, cur, curEnds, hs, nh⟩ := st
    simp only at hob heb hpos ⊢
    subst hpos
    cases rest with
    | nil =>
      refine ⟨obuf, ebuf, le_refl _, le_refl _, ?_⟩
      simp [drainGo, tokenize, processRecs]
    | cons b tail =>
      obtain ⟨hP1, hP2, hP3, hP4, hP5⟩ :=
        rr_props d obuf ebuf cur.length (b :: tail) 0 0 (cur.isEmpty && curEnds.isEmpty)
      obtain ⟨hT1, hT2, hT3⟩ :=
        rr_tok d obuf ebuf cur.length (b :: tail) 0 0 cur curEnds (by omega) _ rfl
      simp only [drainGo]
      set r := read_record_go d obuf ebuf cur.length (b :: tail) 0 0
        (cur.isEmpty && curEnds.isEmpty) with hr
      cases hres : r.res with
      | End => exact absurd hres hP1
      | InputEmpty =>
        have hnin := hP3 hres
        have hdrop : (b :: tail).drop r.nin = [] := by
          rw [hnin]; exact List.drop_length _
        have htok_all := hT2 hres
        refine ⟨obuf, ebuf, le_refl _, le_refl _, ?_⟩
        rw [htok_all]
        simp [hres, hdrop, processRecs, List.length_append]
      | Record =>
        have hnin := hP2 hres
        have htok_all : tokenize d (b :: tail) cur curEnds =
            ((cur ++ r.outB, curEnds ++ r.endsB) ::
              (tokenize d ((b :: tail).drop r.nin) [] []).1,
             (tokenize d ((b :: tail).drop r.nin) [] []).2) := by
          conv_lhs => rw [← List.take_append_drop r.nin (b :: tail)]
          rw [tokenize_append, hT1 hres]
          simp
        have hlen' : ((b :: tail).drop r.nin).length < fuel := by
          rw [List.length_drop]
          simp only [List.length_cons] at hfuel ⊢
          omega
        rw [htok_all]
        simp only [hres, processRecs]
        cases hbr : build_row (cur ++ r.outB) (curEnds ++ r.endsB) with
        | error e =>
          refine ⟨obuf, ebuf, le_refl _, le_refl _, ?_⟩
          simp
        | ok row =>
          by_cases hhd : (hH && !hs) = true
          · simp only [hhd, if_true]
            obtain ⟨ob, eb, hle1, hle2, heq⟩ :=
              ih ⟨0, obuf, ebuf, [], [], true, some (row.map normalize_field_name)⟩
                ((b :: tail).drop r.nin) hlen' hob heb rfl
            simp only at heq
            refine ⟨ob, eb, hle1, hle2, ?_⟩
            rw [heq]
          · rw [Bool.not_eq_true] at hhd
            simp only [hhd, Bool.false_eq_true, if_false]
            obtain ⟨ob, eb, hle1, hle2, heq⟩ :=
              ih ⟨0, obuf, ebuf, [], [], hs, nh⟩ ((b :: tail).drop r.nin) hlen' hob heb rfl
            simp only at heq
            refine ⟨ob, eb, hle1, hle2, ?_⟩
            rw [heq]
            cases hpr : processRecs hH hs nh ((tokenize d ((b :: tail).drop r.nin) [] []).1) with
            | error e => simp [hpr]
            | ok v =>
              obtain ⟨hs', nh', rows⟩ := v
              by_cases hsum : (summarize_row row).isEmpty = true <;> simp [hsum, hpr]
      | OutputFull =>
        have hgeq := hP4 hres
        have hnin : 1 ≤ r.nin := by omega
        have hlen' : ((b :: tail).drop r.nin).length < fuel := by
          rw [List.length_drop]
          simp only [List.length_cons] at hfuel ⊢
          omega
        have hob' : 0 < growOut obuf r.outB.length := by unfold growOut; omega
        have hpos' : cur.length + r.outB.length = (cur ++ r.outB).length := by simp
        obtain ⟨ob, eb, hle1, hle2, heq⟩ :=
          ih ⟨cur.length + r.outB.length, growOut obuf r.outB.length, ebuf,
              cur ++ r.outB, curEnds ++ r.endsB, hs, nh⟩
            ((b :: tail).drop r.nin) hlen' hob' heb hpos'
        simp only at heq
        have htok_all : tokenize d (b :: tail) cur curEnds =
            tokenize d ((b :: tail).drop r.nin) (cur ++ r.outB) (curEnds ++ r.endsB) := by
          conv_lhs => rw [← List.take_append_drop r.nin (b :: tail)]
          rw [tokenize_append, hT3 (Or.inl hres)]
          simp
        have hgrow : obuf ≤ growOut obuf r.outB.length := by unfold growOut; omega
        refine ⟨ob, eb, le_trans hgrow hle1, hle2, ?_⟩
        rw [htok_all]
        simp only [hres]
        exact heq
      | OutputEndsFull =>
        have hgeq := hP5 hres
        have hnin : 1 ≤ r.nin := by omega
        have hlen' : ((b :: tail).drop r.nin).length < fuel := by
          rw [List.length_drop]
          simp only [List.length_cons] at hfuel ⊢
          omega
        have heb' : 0 < growEnds ebuf r.endsB.length := by unfold growEnds; omega
        have hpos' : cur.length + r.outB.length = (cur ++ r.outB).length := by simp
        obtain ⟨ob, eb, hle1, hle2, heq⟩ :=
          ih ⟨cur.length + r.outB.length, obuf, growEnds ebuf r.endsB.length,
              cur ++ r.outB, curEnds ++ r.endsB, hs, nh⟩
            ((b :: tail).drop r.nin) hlen' hob heb' hpos'
        simp only at heq
        have htok_all : tokenize d (b :: tail) cur curEnds =
            tokenize d ((b :: tail).drop r.nin) (cur ++ r.outB) (curEnds ++ r.endsB) := by
          conv_lhs => rw [← List.take_append_drop r.nin (b :: tail)]
          rw [tokenize_append, hT3 (Or.inr hres)]
          simp
        have hgrow : ebuf ≤ growEnds ebuf r.endsB.length := by unfold growEnds; omega
        refine ⟨ob, eb, hle1, le_trans hgrow hle2, ?_⟩
        rw [htok_all]
        simp only [hres]
        exact heq

/-- With positive capacities and adequate fuel, a successful pass of the
drive loop leaves no unconsumed input behind: the returned remainder is
always empty. -/
theorem drainGo_rem (d : Nat) (hH : Bool) :
    ∀ (fuel : Nat) (st : DrainSt) (rest : List Nat),
    rest.length < fuel → 0 < st.obuf → 0 < st.ebuf →
    ∀ out, drainGo d hH fuel st rest = .ok out → out.2.2 = [] := by
  intro fuel
  induction fuel with
  | zero => intro st rest h _ _ out _; exact absurd h (Nat.not_lt_zero _)
  | succ fuel ih =>
    intro st rest hfuel hob heb out h
    obtain ⟨pos, obuf, ebuf, cur, curEnds, hs, nh⟩ := st
    simp only at hob heb h
    cases rest with
    | nil =>
      simp only [drainGo, Except.ok.injEq] at h
      rw [← h]
    | cons b tail =>
      obtain ⟨hP1, hP2, hP3, hP4, hP5⟩ :=
        rr_props d obuf ebuf pos (b :: tail) 0 0 (cur.isEmpty && curEnds.isEmpty)
      simp only [drainGo] at h
      set r := read_record_go d obuf ebuf pos (b :: tail) 0 0
        (cur.isEmpty && curEnds.isEmpty) with hr
      cases hres : r.res with
      | End => exact absurd hres hP1
      | InputEmpty =>
        have hnin := hP3 hres
        simp only [hres, Except.ok.injEq] at h
        rw [← h]
        have : (b :: tail).drop r.nin = [] := by rw [hnin]; exact List.drop_length _
        simpa using this
      | Record =>
        have hnin := hP2 hres
        have hlen' : ((b :: tail).drop r.nin).length < fuel := by
          rw [List.length_drop]
          simp only [List.length_cons] at hfuel ⊢
          omega
        simp only [hres] at h
        cases hbr : build_row (cur ++ r.outB) (curEnds ++ r.endsB) with
        | error e => rw [hbr] at h; simp at h
        | ok row =>
          rw [hbr] at h
          by_cases hhd : (hH && !hs) = true
          · simp only [hhd, if_true] at h
            exact ih _ _ hlen' hob heb out h
          · rw [Bool.not_eq_true] at hhd
            simp only [hhd, Bool.false_eq_true, if_false] at h
            by_cases hsum : (summarize_row row).isEmpty = true
            · simp only [hsum, if_true] at h
              exact ih _ _ hlen' hob heb out h
            · rw [Bool.not_eq_true] at hsum
              simp only [hsum, Bool.false_eq_true, if_false] at h
              cases hdg : drainGo d hH fuel ⟨0, obuf, ebuf, [], [], hs, nh⟩
                  ((b :: tail).drop r.nin) with
              | error e => rw [hdg] at h; simp at h
              | ok val =>
                obtain ⟨st2, rows, rem⟩ := val
                rw [hdg] at h
                simp only [Except.ok.injEq] at h
                rw [← h]
                exact ih _ _ hlen' hob heb (st2, rows, rem) hdg
      | OutputFull =>
        have hgeq := hP4 hres
        have hlen' : ((b :: tail).drop r.nin).length < fuel := by
          rw [List.length_drop]
          simp only [List.length_cons] at hfuel ⊢
          omega
        have hob' : 0 < growOut obuf r.outB.length := by unfold growOut; omega
        simp only [hres] at h
        exact ih _ _ hlen' hob' heb out h
      | OutputEndsFull =>
        have hgeq := hP5 hres
        have hlen' : ((b :: tail).drop r.nin).length < fuel := by
          rw [List.length_drop]
          simp only [List.length_cons] at hfuel ⊢
          omega
        have heb' : 0 < growEnds ebuf r.endsB.length := by unfold growEnds; omega
        simp only [hres] at h
        exact ih _ _ hlen' hob heb' out h

/-- Every row the drive loop emits has passed the emptiness filter: some
field survives trimming.  This needs no capacity or fuel assumptions — rows
enter the output only through the guarded push. -/
theorem drainGo_filter (d : Nat) (hH : Bool) :
    ∀ (fuel : Nat) (st : DrainSt) (rest : List Nat) out,
    drainGo d hH fuel st rest = .ok out →
    ∀ row ∈ out.2.1, (summarize_row row).isEmpty = false := by
  intro fuel
  induction fuel with
  | zero =>
    intro st rest out h
    simp only [drainGo, Except.ok.injEq] at h
    rw [← h]
    intro row hrow
    simp at hrow
  | succ fuel ih =>
    intro st rest out h
    obtain ⟨pos, obuf, ebuf, cur, curEnds, hs, nh⟩ := st
    cases rest with
    | nil =>
      simp only [drainGo, Except.ok.injEq] at h
      rw [← h]
      intro row hrow
      simp at hrow
    | cons b tail =>
      simp only [drainGo] at h
      set r := read_record_go d obuf ebuf pos (b :: tail) 0 0
        (cur.isEmpty && curEnds.isEmpty) with hr
      cases hres : r.res with
      | End =>
        simp only [hres, Except.ok.injEq] at h
        rw [← h]
        intro row hrow
        simp at hrow
      | InputEmpty =>
        simp only [hres, Except.ok.injEq] at h
        rw [← h]
        intro row hrow
        simp at hrow
      | Record =>
        simp only [hres] at h
        cases hbr : build_row (cur ++ r.outB) (curEnds ++ r.endsB) with
        | error e => rw [hbr] at h; simp at h
        | ok row0 =>
          rw [hbr] at h
          by_cases hhd : (hH && !hs) = true
          · simp only [hhd, if_true] at h
            exact ih _ _ out h
          · rw [Bool.not_eq_true] at hhd
            simp only [hhd, Bool.false_eq_true, if_false] at h
            by_cases hsum : (summarize_row row0).isEmpty = true
            · simp only [hsum, if_true] at h
              exact ih _ _ out h
            · rw [Bool.not_eq_true] at hsum
              simp only [hsum, Bool.false_eq_true, if_false] at h
              cases hdg : drainGo d hH fuel ⟨0, obuf, ebuf, [], [], hs, nh⟩
                  ((b :: tail).drop r.nin) with
              | error e => rw [hdg] at h; simp at h
              | ok val =>
                obtain ⟨st2, rows, rem⟩ := val
                rw [hdg] at h
                simp only [Except.ok.injEq] at h
                rw [← h]
                intro row hrow
                simp only [List.mem_cons] at hrow
                cases hrow with
                | inl hrow =>
                  rw [hrow]
                  exact hsum
                | inr hrow => exact ih _ _ _ hdg row hrow
      | OutputFull =>
        simp only [hres] at h
        exact ih _ _ out h
      | OutputEndsFull =>
        simp only [hres] at h
        exact ih _ _ out h

/-- `drain_records` at the session level: one pass equals the reference
pipeline over the staged bytes, the byte buffer comes back empty, and the
final tokenization accumulators become the new pending record. -/
theorem drain_records_spec (s : CsvSession) (final_flush : Bool)
    (hob : 0 < s.obuf) (heb : 0 < s.ebuf) (hpos : s.pos = s.pend.length) :
    ∃ ob eb, s.obuf ≤ ob ∧ s.ebuf ≤ eb ∧
      s.drain_records final_flush =
        (match processRecs s.hasHeaders s.headersSkipped s.normHeaders
            (tokenize s.delim s.buffer s.pend s.pendEnds).1 with
         | .error e => .error e
         | .ok (hs', nh', rows) =>
           .ok (rows,
             { s with buffer := [], obuf := ob, ebuf := eb,
                      pos := (tokenize s.delim s.buffer s.pend s.pendEnds).2.1.length,
                      pend := (tokenize s.delim s.buffer s.pend s.pendEnds).2.1,
                      pendEnds := (tokenize s.delim s.buffer s.pend s.pendEnds).2.2,
                      headersSkipped := hs', normHeaders := nh' })) := by
  obtain ⟨ob, eb, h1, h2, heq⟩ :=
    drainGo_spec s.delim s.hasHeaders (s.buffer.length + 1)
      ⟨s.pos, s.obuf, s.ebuf, s.pend, s.pendEnds, s.headersSkipped, s.normHeaders⟩
      s.buffer (by omega) hob heb hpos
  simp only at heq
  refine ⟨ob, eb, h1, h2, ?_⟩
  simp only [CsvSession.drain_records]
  rw [heq]
  cases hpr : processRecs s.hasHeaders s.headersSkipped s.normHeaders
      (tokenize s.delim s.buffer s.pend s.pendEnds).1 with
  | error e => simp
  | ok v =>
    obtain ⟨hs', nh', rows⟩ := v
    simp

/-- Successive pushes from a drained session compute the reference pipeline
over the concatenation of the chunks: rows accumulate in order, the header
state threads through, and the pending accumulators end up exactly as if the
joined byte sequence had been tokenized in one sweep. -/
theorem pushAll_spec (chunks : List (List Nat)) :
    ∀ (s : CsvSession), s.buffer = [] → 0 < s.obuf → 0 < s.ebuf →
    s.pos = s.pend.length →
    ∃ ob eb, 0 < ob ∧ 0 < eb ∧
      pushAll s chunks =
        (match processRecs s.hasHeaders s.headersSkipped s.normHeaders
            (tokenize s.delim chunks.join s.pend s.pendEnds).1 with
         | .error e => .error e
         | .ok (hs', nh', rows) =>
           .ok (rows,
             { s with buffer := [], obuf := ob, ebuf := eb,
                      pos := (tokenize s.delim chunks.join s.pend s.pendEnds).2.1.length,
                      pend := (tokenize s.delim chunks.join s.pend s.pendEnds).2.1,
                      pendEnds := (tokenize s.delim chunks.join s.pend s.pendEnds).2.2,
                      headersSkipped := hs', normHeaders := nh' })) := by
  induction chunks with
  | nil =>
    intro s hbuf hob heb hpos
    refine ⟨s.obuf, s.ebuf, hob, heb, ?_⟩
    obtain ⟨buffer, obuf, ebuf, pos, pend, pendEnds, delim, hasHeaders, hs, nh⟩ := s
    simp only at hbuf hpos ⊢
    subst hbuf; subst hpos
    simp [pushAll, tokenize, processRecs]
  | cons c cs ih =>
    intro s hbuf hob heb hpos
    have hpush : s.push_bytes c = CsvSession.drain_records { s with buffer := c } false := by
      unfold CsvSession.push_bytes
      rw [hbuf]
      simp
    obtain ⟨ob1, eb1, hle1, hle2, heq1⟩ :=
      drain_records_spec { s with buffer := c } false hob heb hpos
    simp only at heq1 hle1 hle2
    rw [heq1] at hpush
    simp only [pushAll, hpush]
    cases hpr1 : processRecs s.hasHeaders s.headersSkipped s.normHeaders
        (tokenize s.delim c s.pend s.pendEnds).1 with
    | error e =>
      refine ⟨1, 1, one_pos, one_pos, ?_⟩
      simp only []
      have hjoin : (c :: cs).join = c ++ cs.join := by simp
      rw [hjoin, tokenize_append, processRecs_append, hpr1]
    | ok v =>
      obtain ⟨hs1, nh1, rows1⟩ := v
      obtain ⟨ob2, eb2, hpos2, hpeb2, heq2⟩ :=
        ih { s with buffer := [], obuf := ob1, ebuf := eb1,
                    pos := (tokenize s.delim c s.pend s.pendEnds).2.1.length,
                    pend := (tokenize s.delim c s.pend s.pendEnds).2.1,
                    pendEnds := (tokenize s.delim c s.pend s.pendEnds).2.2,
                    headersSkipped := hs1, normHeaders := nh1 }
          rfl (by show (0:Nat) < ob1; omega) (by show (0:Nat) < eb1; omega) rfl
      simp only at heq2
      simp only []
      rw [heq2]
      refine ⟨ob2, eb2, hpos2, hpeb2, ?_⟩
      have hjoin : (c :: cs).join = c ++ cs.join := by simp
      rw [hjoin, tokenize_append, processRecs_append, hpr1]
      simp only []
      cases hpr2 : processRecs s.hasHeaders hs1 nh1
          (tokenize s.delim cs.join (tokenize s.delim c s.pend s.pendEnds).2.1
            (tokenize s.delim c s.pend s.pendEnds).2.2).1 with
      | error e => simp [hpr2]
      | ok v2 =>
        obtain ⟨hs2, nh2, rows2⟩ := v2
        simp [hpr2]

/-- A full streaming run from a drained session returns exactly the rows of
the reference pipeline over the joined chunks.  Because each push drains the
byte buffer completely, the finalizing flush finds an empty buffer and
contributes no further rows. -/
theorem runSession_spec (chunks : List (List Nat)) (s : CsvSession)
    (hbuf : s.buffer = []) (hob : 0 < s.obuf) (heb : 0 < s.ebuf)
    (hpos : s.pos = s.pend.length) :
    runSession s chunks =
      (match processRecs s.hasHeaders s.headersSkipped s.normHeaders
          (tokenize s.delim chunks.join s.pend s.pendEnds).1 with
       | .error e => .error e
       | .ok (_, _, rows) => .ok rows) := by
  obtain ⟨ob, eb, hob', heb', heq⟩ := pushAll_spec chunks s hbuf hob heb hpos
  unfold runSession
  rw [heq]
  cases hpr : processRecs s.hasHeaders s.headersSkipped s.normHeaders
      (tokenize s.delim chunks.join s.pend s.pendEnds).1 with
  | error e => simp
  | ok v =>
    obtain ⟨hs', nh', rows⟩ := v
    simp only []
    have hfin : CsvSession.finish_rows
        { s with buffer := [], obuf := ob, ebuf := eb,
                 pos := (tokenize s.delim chunks.join s.pend s.pendEnds).2.1.length,
                 pend := (tokenize s.delim chunks.join s.pend s.pendEnds).2.1,
                 pendEnds := (tokenize s.delim chunks.join s.pend s.pendEnds).2.2,
                 headersSkipped := hs', normHeaders := nh' } =
        CsvSession.drain_records
          { s with buffer := [], obuf := ob, ebuf := eb,
                   pos := (tokenize s.delim chunks.join s.pend s.pendEnds).2.1.length,
                   pend := (tokenize s.delim chunks.join s.pend s.pendEnds).2.1,
                   pendEnds := (tokenize s.delim chunks.join s.pend s.pendEnds).2.2,
                   headersSkipped := hs', normHeaders := nh' } true := by
      unfold CsvSession.finish_rows
      simp
    rw [hfin]
    obtain ⟨ob2, eb2, _, _, heq2⟩ :=
      drain_records_spec
        { s with buffer := [], obuf := ob, ebuf := eb,
                 pos := (tokenize s.delim chunks.join s.pend s.pendEnds).2.1.length,
                 pend := (tokenize s.delim chunks.join s.pend s.pendEnds).2.1,
                 pendEnds := (tokenize s.delim chunks.join s.pend s.pendEnds).2.2,
                 headersSkipped := hs', normHeaders := nh' } true
        (by show (0:Nat) < ob; omega) (by show (0:Nat) < eb; omega) rfl
    simp only at heq2
    rw [heq2]
    simp [tokenize, processRecs]

/-! ## Character-level lemmas for header normalization -/

theorem char_toNat_ofNat (n : Nat) (h : n < 55296) : (Char.ofNat n).toNat = n := by
  unfold Char.ofNat
  rw [dif_pos (Or.inl h)]
  rfl

theorem toLower_toLower (c : Char) : Char.toLower (Char.toLower c) = Char.toLower c := by
  unfold Char.toLower
  simp only []
  by_cases h : c.toNat ≥ 65 ∧ c.toNat ≤ 90
  · rw [if_pos h]
    have hval : (Char.ofNat (c.toNat + 32)).toNat = c.toNat + 32 :=
      char_toNat_ofNat _ (by omega)
    rw [hval, if_neg (by omega)]
  · rw [if_neg h, if_neg h]

theorem ws_not_alnum (c : Char) (h : c.isWhitespace = true) : c.isAlphanum = false := by
  simp only [Char.isWhitespace, Bool.or_eq_true, decide_eq_true_eq] at h
  obtain ((h | h) | h) | h := h <;> subst h <;> decide

theorem alnum_not_ws (c : Char) (h : c.isAlphanum = true) : c.isWhitespace = false := by
  cases hw : c.isWhitespace with
  | false => rfl
  | true => rw [ws_not_alnum c hw] at h; exact absurd h (by simp)

theorem dropWhile_all_false {α : Type} (p : α → Bool) (l : List α)
    (h : ∀ x ∈ l, p x = false) : l.dropWhile p = l := by
  cases l with
  | nil => rfl
  | cons x xs =>
    rw [List.dropWhile_cons]
    rw [h x (List.mem_cons_self x xs)]
    simp

theorem map_id_of_mem {α : Type} (f : α → α) (l : List α)
    (h : ∀ x ∈ l, f x = x) : l.map f = l := by
  induction l with
  | nil => rfl
  | cons x xs ih =>
    simp only [List.map_cons]
    rw [h x (List.mem_cons_self x xs), ih (fun y hy => h y (List.mem_cons_of_mem x hy))]

theorem trimChars_all_not_ws (l : List Char)
    (h : ∀ x ∈ l, x.isWhitespace = false) : trimChars l = l := by
  unfold trimChars
  rw [dropWhile_all_false _ l h]
  rw [dropWhile_all_false _ l.reverse (fun x hx => h x (List.mem_reverse.1 hx))]
  exact List.reverse_reverse l

/-! ## Emptiness filter lemma -/

theorem summarize_nonempty (row : List String)
    (h : (summarize_row row).isEmpty = false) : ∃ f ∈ row, strTrim f ≠ "" := by
  unfold summarize_row at h
  cases hf : row.find? (fun s => !(strTrim s).isEmpty) with
  | none => rw [hf] at h; exact absurd h (by decide)
  | some f =>
    have hmem := List.mem_of_find?_eq_some hf
    have hpred := List.find?_some hf
    refine ⟨f, hmem, ?_⟩
    intro hcontra
    rw [hcontra] at hpred
    exact absurd hpred (by decide)

/-! ## Boundary invariants of the reference tokenization -/

theorem chain_le_append (ends : List Nat) :
    ∀ (a n : Nat), List.Chain (· ≤ ·) a ends → (∀ x ∈ ends, x ≤ n) → a ≤ n →
    List.Chain (· ≤ ·) a (ends ++ [n]) := by
  induction ends with
  | nil =>
    intro a n _ _ han
    exact List.Chain.cons han List.Chain.nil
  | cons x xs ih =>
    intro a n hch hb han
    cases hch with
    | cons hax hxs =>
      refine List.Chain.cons hax ?_
      exact ih x n hxs (fun y hy => hb y (List.mem_cons_of_mem x hy))
        (hb x (List.mem_cons_self x xs))

theorem tokenize_inv (d : Nat) (input : List Nat) :
    ∀ cur ends, ends_in_bounds cur ends →
    (∀ ce ∈ (tokenize d input cur ends).1, ends_in_bounds ce.1 ce.2) ∧
    ends_in_bounds (tokenize d input cur ends).2.1 (tokenize d input cur ends).2.2 := by
  induction input with
  | nil =>
    intro cur ends h
    constructor
    · intro ce hce
      simp [tokenize] at hce
    · simpa [tokenize] using h
  | cons b rest ih =>
    intro cur ends h
    obtain ⟨hch, hbd⟩ := h
    simp only [tokenize]
    split
    · split
      · exact ih [] [] ⟨List.Chain.nil, by simp⟩
      · have hrec := ih [] [] ⟨List.Chain.nil, by simp⟩
        constructor
        · intro ce hce
          simp only [List.mem_cons] at hce
          cases hce with
          | inl hce =>
            rw [hce]
            constructor
            · exact chain_le_append ends 0 cur.length hch hbd (Nat.zero_le _)
            · intro x hx
              simp only [List.mem_append, List.mem_singleton] at hx
              cases hx with
              | inl hx => exact hbd x hx
              | inr hx => exact hx ▸ le_refl _
          | inr hce => exact hrec.1 ce hce
        · exact hrec.2
    · split
      · apply ih
        constructor
        · exact chain_le_append ends 0 cur.length hch hbd (Nat.zero_le _)
        · intro x hx
          simp only [List.mem_append, List.mem_singleton] at hx
          cases hx with
          | inl hx => exact hbd x hx
          | inr hx => exact hx ▸ le_refl _
      · apply ih
        constructor
        · exact hch
        · intro x hx
          have := hbd x hx
          simp only [List.length_append, List.length_cons, List.length_nil]
          omega

/-- A successful `drain_records` pass leaves the byte buffer empty: an
incremental pass returns remainder `[]`, and a final flush clears it
explicitly. -/
theorem drain_records_buffer (s : CsvSession) (ff : Bool)
    (rows : List (List String)) (s' : CsvSession)
    (hob : 0 < s.obuf) (heb : 0 < s.ebuf)
    (h : s.drain_records ff = .ok (rows, s')) : s'.buffer = [] := by
  simp only [CsvSession.drain_records] at h
  cases hdg : drainGo s.delim s.hasHeaders (s.buffer.length + 1)
      ⟨s.pos, s.obuf, s.ebuf, s.pend, s.pendEnds, s.headersSkipped, s.normHeaders⟩
      s.buffer with
  | error e => rw [hdg] at h; simp at h
  | ok out =>
    obtain ⟨st', rows2, rem⟩ := out
    have hrem : rem = [] :=
      drainGo_rem s.delim s.hasHeaders (s.buffer.length + 1) _ s.buffer
        (by omega) hob heb (st', rows2, rem) hdg
    rw [hdg] at h
    simp only [Except.ok.injEq, Prod.mk.injEq] at h
    rw [← h.2]
    simp only []
    rw [hrem]
    cases ff <;> simp

/-- Every row returned by a `drain_records` pass has some field that does not
trim to the empty string. -/
theorem drain_records_filter (s : CsvSession) (ff : Bool)
    (rows : List (List String)) (s' : CsvSession)
    (h : s.drain_records ff = .ok (rows, s')) :
    ∀ row ∈ rows, ∃ f ∈ row, strTrim f ≠ "" := by
  simp only [CsvSession.drain_records] at h
  cases hdg : drainGo s.delim s.hasHeaders (s.buffer.length + 1)
      ⟨s.pos, s.obuf, s.ebuf, s.pend, s.pendEnds, s.headersSkipped, s.normHeaders⟩
      s.buffer with
  | error e => rw [hdg] at h; simp at h
  | ok out =>
    obtain ⟨st', rows2, rem⟩ := out
    rw [hdg] at h
    simp only [Except.ok.injEq, Prod.mk.injEq] at h
    intro row hrow
    have hmem : row ∈ rows2 := by rw [h.1]; exact hrow
    have hf := drainGo_filter s.delim s.hasHeaders (s.buffer.length + 1) _ s.buffer
      (st', rows2, rem) hdg row hmem
    exact summarize_nonempty row hf

/-! ## Claims -/

/-- C1: Chunking invariance.  For every CSV byte sequence and every split of
it into chunks fed via successive pushes followed by one finalize, the
concatenated sequence of emitted data rows equals that of a single push of
the whole sequence followed by finalize: whenever the single-push run
succeeds with row sequence `rows`, the chunked run succeeds with exactly the
same `rows`, for every list of chunks (hence every N ≥ 1 and every choice of
split points). -/
theorem c1_chunking_invariance (d : Nat) (hH : Bool) (chunks : List (List Nat))
    (rows : List (List String))
    (h : runSession (CsvSession.new d hH) [chunks.join] = .ok rows) :
    runSession (CsvSession.new d hH) chunks = .ok rows := by
  have h1 := runSession_spec [chunks.join] (CsvSession.new d hH) rfl
    (by show (0:Nat) < 1024; decide) (by show (0:Nat) < 32; decide) rfl
  have h2 := runSession_spec chunks (CsvSession.new d hH) rfl
    (by show (0:Nat) < 1024; decide) (by show (0:Nat) < 32; decide) rfl
  have hjj : ([chunks.join] : List (List Nat)).join = chunks.join := by simp
  rw [hjj] at h1
  rw [h1] at h
  rw [h2]
  exact h

/-- C1 witness: the spec's own example split, `"a,b,c\n1,2"` then
`",3\n4,5,6"`, with delimiter `,` and headers on, yields the same final rows
as the single push of the whole sequence. -/
theorem c1_chunking_invariance_witness :
    runSession (CsvSession.new 44 true)
      [[strBytes ("a,b,c\n1,2"), strBytes (",3\n4,5,6")].join] = .ok [["1", "2", "3"]] ∧
    runSession (CsvSession.new 44 true)
      [strBytes ("a,b,c\n1,2"), strBytes (",3\n4,5,6")] = .ok [["1", "2", "3"]] :=
  ⟨rfl, c1_chunking_invariance 44 true
    [strBytes ("a,b,c\n1,2"), strBytes (",3\n4,5,6")] [["1", "2", "3"]] rfl⟩

/-- C2: evaluation of the code at the spec's example input
`"a,b,c\n1,2,3\n4,5,6"` (no trailing newline, delimiter `,`,
`hasHeaders = true`, one push then finalize).  The headers are captured and
normalized to `["a","b","c"]` as the claim states, but the emitted data rows
are only `[["1","2","3"]]`: the final record `4,5,6` is lost.  The push
consumes every staged byte (the partial record lives on in the pending
scratch `"456"` with boundaries `[1,2]`, and the byte buffer is empty), so
finalize's newline injection — guarded on the byte buffer being non-empty —
never fires and the pending record is never completed, contradicting the
claimed output `[["1","2","3"],["4","5","6"]]` and the code's own intent of
flushing all pending bytes. -/
theorem c2_finalize_drops_unterminated_last_record :
    runSession (CsvSession.new 44 true) [strBytes ("a,b,c\n1,2,3\n4,5,6")] =
      .ok [["1", "2", "3"]] ∧
    ∃ s', pushAll (CsvSession.new 44 true) [strBytes ("a,b,c\n1,2,3\n4,5,6")] =
        .ok ([["1", "2", "3"]], s') ∧
      s'.normHeaders = some ["a", "b", "c"] ∧
      s'.pend = strBytes ("456") ∧ s'.pendEnds = [1, 2] ∧ s'.buffer = [] :=
  ⟨rfl, ⟨_, rfl, rfl, rfl, rfl, rfl⟩⟩

/-- C3: Cumulative-boundary invariant.  Across any sequence of pushes from a
fresh session, the pending field boundaries are cumulative offsets into the
pending record scratch (non-decreasing from 0 and bounded by its length),
and every raw record materialised during the run — `drain_records` hands
`build_row` exactly the records of the reference tokenization, including
records assembled across several tokenizer calls — satisfies the same bound,
so each field slice `record[start..end]` taken by `build_row` has
`start ≤ end ≤ record.length`. -/
theorem c3_cumulative_boundaries (d : Nat) (hH : Bool) (chunks : List (List Nat))
    (rows : List (List String)) (s' : CsvSession)
    (h : pushAll (CsvSession.new d hH) chunks = .ok (rows, s')) :
    ends_in_bounds s'.pend s'.pendEnds ∧
    ∀ ce ∈ (tokenize d chunks.join [] []).1, ends_in_bounds ce.1 ce.2 := by
  obtain ⟨ob, eb, _, _, heq⟩ :=
    pushAll_spec chunks (CsvSession.new d hH) rfl
      (by show (0:Nat) < 1024; decide) (by show (0:Nat) < 32; decide) rfl
  simp only [CsvSession.new] at heq h
  rw [heq] at h
  have hinv := tokenize_inv d chunks.join [] [] ⟨List.Chain.nil, by simp⟩
  refine ⟨?_, fun ce hce => hinv.1 ce hce⟩
  cases hpr : processRecs hH false none (tokenize d chunks.join [] []).1 with
  | error e => rw [hpr] at h; simp at h
  | ok v =>
    obtain ⟨hs2, nh2, rows2⟩ := v
    rw [hpr] at h
    simp only [Except.ok.injEq, Prod.mk.injEq] at h
    rw [← h.2]
    exact hinv.2

/-- C3 witness: pushing `"a,b\n1,2"` leaves the pending record `"12"` with
cumulative boundary list `[1]`, in bounds, and every tokenized record of the
run satisfies the boundary invariant. -/
theorem c3_cumulative_boundaries_witness :
    ends_in_bounds (strBytes ("12")) [1] ∧
    ∀ ce ∈ (tokenize 44 ([strBytes ("a,b\n1,2")].join) [] []).1,
      ends_in_bounds ce.1 ce.2 :=
  c3_cumulative_boundaries 44 false [strBytes ("a,b\n1,2")] [["a", "b"]]
    { buffer := [], obuf := 1024, ebuf := 32, pos := 2, pend := strBytes ("12"),
      pendEnds := [1], delim := 44, hasHeaders := false, headersSkipped := false,
      normHeaders := none } rfl

/-- C4 counterexample: pushing `"a,b\nÿ\n"` (the second record being the
invalid UTF-8 byte 255) into a fresh session completes the valid row
`["a","b"]` earlier in the same call — the second conjunct shows the first
record of this very input materialises to that data row — yet the call's
entire result is just the `DecodingError`: a `Result`-typed push returns no
rows alongside an error, so the rows completed earlier in the same call are
discarded rather than retained, refuting the claim as stated. -/
theorem c4_counterexample :
    (CsvSession.new 44 false).push_bytes (strBytes ("a,b\n") ++ [255, 10]) =
      .error ("UTF-8 error") ∧
    processRecs false false none (tokenize 44 (strBytes ("a,b\n")) [] []).1 =
      .ok (false, none, [["a", "b"]]) :=
  ⟨rfl, rfl⟩

/-- C4 amended: when a field's bytes are not valid UTF-8, the DecodingError
is propagated immediately out of that push/finalize call and the call
returns only the error — rows completed earlier in the *same* call are
dropped with it; rows already returned by *earlier* calls are unaffected.
Demonstrated across two pushes: the first call delivers `["a","b"]`, the
second call fails with the error and yields no rows. -/
theorem c4_error_propagation :
    ∃ s1 : CsvSession,
      (CsvSession.new 44 false).push_bytes (strBytes ("a,b\n")) =
        .ok ([["a", "b"]], s1) ∧
      s1.push_bytes [255, 10] = .error ("UTF-8 error") :=
  ⟨_, rfl, rfl⟩

/-- C5: after every push or finalize call that returns successfully (from
any session whose buffer capacities are positive, as they are from
construction onward), the session's byte buffer is empty — each drain pass
consumes every staged byte, leaving partial-record bytes only in the
pending accumulators. -/
theorem c5_buffer_empty_after_calls :
    (∀ (s : CsvSession) (data : List Nat) (rows : List (List String))
        (s' : CsvSession), 0 < s.obuf → 0 < s.ebuf →
      s.push_bytes data = .ok (rows, s') → s'.buffer = []) ∧
    (∀ (s : CsvSession) (rows : List (List String)) (s' : CsvSession),
      0 < s.obuf → 0 < s.ebuf →
      s.finish_rows = .ok (rows, s') → s'.buffer = []) := by
  constructor
  · intro s data rows s' hob heb h
    unfold CsvSession.push_bytes at h
    exact drain_records_buffer { s with buffer := s.buffer ++ data } false rows s' hob heb h
  · intro s rows s' hob heb h
    simp only [CsvSession.finish_rows] at h
    by_cases hc : s.buffer ≠ [] ∧ s.buffer.getLast? ≠ some 10
    · rw [if_pos hc] at h
      exact drain_records_buffer { s with buffer := s.buffer ++ [10] } true rows s' hob heb h
    · rw [if_neg hc] at h
      exact drain_records_buffer s true rows s' hob heb h

/-- C5 witness: pushing `"a,b\n4,5"` into a fresh session returns the session
with an empty byte buffer; the unfinished record `45` is carried only in the
pending scratch and boundaries. -/
theorem c5_buffer_empty_witness :
    ({ buffer := [], obuf := 1024, ebuf := 32, pos := 2, pend := strBytes ("45"),
       pendEnds := [1], delim := 44, hasHeaders := false, headersSkipped := false,
       normHeaders := none } : CsvSession).buffer = [] :=
  c5_buffer_empty_after_calls.1 (CsvSession.new 44 false) (strBytes ("a,b\n4,5"))
    [["a", "b"]] _ (by decide) (by decide) rfl

/-- C6: header suppression and one-time capture.  With `hasHeaders = true`,
for any run of pushes from a fresh session whose input tokenizes to a first
completed record `(c, e)` followed by records `tl`: the header flag is set,
the normalized field names of that first record are cached in the session,
and the emitted rows are exactly the data rows of the later records `tl`
processed with the header already captured — the first record is never
present among them, and the header state never transitions again. -/
theorem c6_header_capture (d : Nat) (chunks : List (List Nat))
    (rows : List (List String)) (s' : CsvSession) (c e : List Nat)
    (tl : List (List Nat × List Nat)) (hrow : List String)
    (hpush : pushAll (CsvSession.new d true) chunks = .ok (rows, s'))
    (hrecs : (tokenize d chunks.join [] []).1 = (c, e) :: tl)
    (hbuild : build_row c e = .ok hrow) :
    s'.headersSkipped = true ∧
    s'.normHeaders = some (hrow.map normalize_field_name) ∧
    processRecs true true (some (hrow.map normalize_field_name)) tl =
      .ok (true, some (hrow.map normalize_field_name), rows) := by
  obtain ⟨ob, eb, _, _, heq⟩ :=
    pushAll_spec chunks (CsvSession.new d true) rfl
      (by show (0:Nat) < 1024; decide) (by show (0:Nat) < 32; decide) rfl
  simp only [CsvSession.new] at heq hpush
  rw [heq, hrecs] at hpush
  simp only [processRecs, hbuild, Bool.not_false, Bool.and_self, eq_self_iff_true,
    if_true] at hpush
  cases hpr : processRecs true true (some (hrow.map normalize_field_name)) tl with
  | error e0 =>
    rw [hpr] at hpush
    simp at hpush
  | ok v =>
    obtain ⟨hs2, nh2, rows2⟩ := v
    rw [hpr] at hpush
    simp only [Except.ok.injEq, Prod.mk.injEq] at hpush
    obtain ⟨hrows, hsess⟩ := hpush
    obtain ⟨hx, hy⟩ := processRecs_hs_true true tl
      (some (hrow.map normalize_field_name)) hs2 nh2 rows2 hpr
    refine ⟨?_, ?_, ?_⟩
    · rw [← hsess]
      exact hx
    · rw [← hsess]
      exact hy
    · rw [hx, hy, hrows]

/-- C6 witness: pushing `"A b,c\n1,2\n"` with headers on captures the first
record as headers — cached normalized as `["a_b","c"]` — and emits only the
data row of the second record. -/
theorem c6_header_capture_witness :
    ({ buffer := [], obuf := 1024, ebuf := 32, pos := 0, pend := [], pendEnds := [],
       delim := 44, hasHeaders := true, headersSkipped := true,
       normHeaders := some ["a_b", "c"] } : CsvSession).headersSkipped = true ∧
    ({ buffer := [], obuf := 1024, ebuf := 32, pos := 0, pend := [], pendEnds := [],
       delim := 44, hasHeaders := true, headersSkipped := true,
       normHeaders := some ["a_b", "c"] } : CsvSession).normHeaders =
      some (["A b", "c"].map normalize_field_name) ∧
    processRecs true true (some (["A b", "c"].map normalize_field_name))
      [(strBytes ("12"), [1, 2])] =
      .ok (true, some (["A b", "c"].map normalize_field_name), [["1", "2"]]) :=
  c6_header_capture 44 [strBytes ("A b,c\n1,2\n")] [["1", "2"]]
    { buffer := [], obuf := 1024, ebuf := 32, pos := 0, pend := [], pendEnds := [],
      delim := 44, hasHeaders := true, headersSkipped := true,
      normHeaders := some ["a_b", "c"] }
    (strBytes ("A bc")) [3, 4] [(strBytes ("12"), [1, 2])] ["A b", "c"] rfl rfl rfl

/-- C7 counterexample: after finalizing a fresh session, a further push is
accepted as a perfectly normal push and produces further rows
(`[["x","y"]]`) — the session is reusable, refuting the claim that a
subsequent push is not accepted. -/
theorem c7_counterexample :
    pushAfterFinish (CsvSession.new 44 false) (strBytes ("x,y\n")) =
      .ok [["x", "y"]] := rfl

/-- C7 amended: the code does not enforce single use.  `finish` merely leaves
the session with an empty byte buffer; a subsequent push on the finalized
session is accepted and behaves exactly as a normal push whose staged bytes
are just the new chunk (and can therefore produce further rows).  Treating
the session as not reusable is a caller-side contract, not enforced by the
code. -/
theorem c7_finalize_leaves_session_reusable (s s' : CsvSession)
    (rows : List (List String)) (h : s.finish_rows = .ok (rows, s'))
    (data : List Nat) :
    s'.buffer = [] ∧
    s'.push_bytes data =
      CsvSession.drain_records { s' with buffer := data } false := by
  have hbuf : s'.buffer = [] := by
    simp only [CsvSession.finish_rows] at h
    by_cases hc : s.buffer ≠ [] ∧ s.buffer.getLast? ≠ some 10
    · rw [if_pos hc] at h
      simp only [CsvSession.drain_records] at h
      cases hdg : drainGo s.delim s.hasHeaders ((s.buffer ++ [10]).length + 1)
          ⟨s.pos, s.obuf, s.ebuf, s.pend, s.pendEnds, s.headersSkipped, s.normHeaders⟩
          (s.buffer ++ [10]) with
      | error e => rw [hdg] at h; simp at h
      | ok out =>
        obtain ⟨st', rows2, rem⟩ := out
        rw [hdg] at h
        simp only [Except.ok.injEq, Prod.mk.injEq] at h
        rw [← h.2]
        simp
    · rw [if_neg hc] at h
      simp only [CsvSession.drain_records] at h
      cases hdg : drainGo s.delim s.hasHeaders (s.buffer.length + 1)
          ⟨s.pos, s.obuf, s.ebuf, s.pend, s.pendEnds, s.headersSkipped, s.normHeaders⟩
          s.buffer with
      | error e => rw [hdg] at h; simp at h
      | ok out =>
        obtain ⟨st', rows2, rem⟩ := out
        rw [hdg] at h
        simp only [Except.ok.injEq, Prod.mk.injEq] at h
        rw [← h.2]
        simp
  refine ⟨hbuf, ?_⟩
  unfold CsvSession.push_bytes
  rw [hbuf]
  simp

/-- C7 witness: finalizing a fresh session and pushing `"x,y\n"` into it is a
normal push over the new bytes alone. -/
theorem c7_finalize_reusable_witness :
    (CsvSession.new 44 false).buffer = [] ∧
    (CsvSession.new 44 false).push_bytes (strBytes ("x,y\n")) =
      CsvSession.drain_records
        { CsvSession.new 44 false with buffer := strBytes ("x,y\n") } false :=
  c7_finalize_leaves_session_reusable (CsvSession.new 44 false)
    (CsvSession.new 44 false) [] rfl (strBytes ("x,y\n"))

/-- C8: Buffer growth policy.  On `OutputFull` the record scratch capacity
becomes `2 × max(current, bytes written + 1024)`; on `OutputEndsFull` the
field-boundaries capacity becomes `2 × max(current, entries written + 16)`;
both are strictly greater than the old capacity (buffers never shrink
mid-record).  Previously written content is preserved: the capacities have
no effect whatsoever on the rows produced or on any observable session
state — two sessions differing only in their (positive) capacities push to
identical rows and identical observables, so growth events lose no bytes
and duplicate none. -/
theorem c8_growth_policy :
    (∀ len w, growOut len w = 2 * max len (w + 1024) ∧ len < growOut len w) ∧
    (∀ len w, growEnds len w = 2 * max len (w + 16) ∧ len < growEnds len w) ∧
    (∀ (s : CsvSession) (o2 e2 : Nat) (data : List Nat),
      0 < s.obuf → 0 < s.ebuf → 0 < o2 → 0 < e2 → s.pos = s.pend.length →
      ((s.push_bytes data).map (fun p => (p.1, sessionObs p.2))) =
        ((({ s with obuf := o2, ebuf := e2 } : CsvSession).push_bytes data).map
          (fun p => (p.1, sessionObs p.2)))) := by
  refine ⟨?_, ?_, ?_⟩
  · intro len w
    constructor
    · unfold growOut
      omega
    · unfold growOut
      omega
  · intro len w
    constructor
    · unfold growEnds
      omega
    · unfold growEnds
      omega
  · intro s o2 e2 data hob heb ho2 he2 hpos
    obtain ⟨ob1, eb1, _, _, heq1⟩ :=
      drain_records_spec { s with buffer := s.buffer ++ data } false hob heb hpos
    obtain ⟨ob2, eb2, _, _, heq2⟩ :=
      drain_records_spec
        { s with buffer := s.buffer ++ data, obuf := o2, ebuf := e2 } false ho2 he2 hpos
    simp only at heq1 heq2
    unfold CsvSession.push_bytes
    simp only []
    rw [heq1, heq2]
    cases hpr : processRecs s.hasHeaders s.headersSkipped s.normHeaders
        (tokenize s.delim (s.buffer ++ data) s.pend s.pendEnds).1 with
    | error e => simp [Except.map]
    | ok v =>
      obtain ⟨hs', nh', rows⟩ := v
      simp [Except.map, sessionObs]

/-- C8 witness: a session whose scratch capacity is a single byte and whose
boundary capacity is a single entry (forcing growth on the very first
record) produces exactly the same rows and observable state as the
1024/32-capacity session on the same input. -/
theorem c8_growth_policy_witness :
    (0:Nat) < 1 ∧
    ((({ CsvSession.new 44 false with obuf := 1, ebuf := 1 } : CsvSession).push_bytes
        (strBytes ("ab,cd\n"))).map (fun p => (p.1, sessionObs p.2))) =
      ((CsvSession.new 44 false).push_bytes (strBytes ("ab,cd\n"))).map
        (fun p => (p.1, sessionObs p.2)) :=
  ⟨by decide,
    (c8_growth_policy.2.2 { CsvSession.new 44 false with obuf := 1, ebuf := 1 }
      1024 32 (strBytes ("ab,cd\n")) (by decide) (by decide) (by decide) (by decide)
      rfl)⟩

/-- C9: Normalization idempotence.  For every string, applying the
header-name normalization (trim, lowercase, then replace every character
that is neither alphanumeric nor underscore by an underscore) twice yields
the same result as applying it once. -/
theorem c9_normalize_idempotent (s : String) :
    normalize_field_name (normalize_field_name s) = normalize_field_name s := by
  unfold normalize_field_name
  have hdata : (String.mk (((trimChars s.data).map Char.toLower).map
      (fun c => if c.isAlphanum || c == '_' then c else '_'))).data =
      ((trimChars s.data).map Char.toLower).map
        (fun c => if c.isAlphanum || c == '_' then c else '_') := rfl
  rw [hdata]
  set t := ((trimChars s.data).map Char.toLower).map
    (fun c => if c.isAlphanum || c == '_' then c else '_') with ht
  have hmem : ∀ x ∈ t, ∃ y, x = (if y.isAlphanum || y == '_' then y else '_') ∧
      ∃ z, y = Char.toLower z := by
    intro x hx
    rw [ht] at hx
    obtain ⟨y, hy, hxy⟩ := List.mem_map.1 hx
    obtain ⟨z, _, hyz⟩ := List.mem_map.1 hy
    exact ⟨y, hxy.symm, z, hyz.symm⟩
  have hws : ∀ x ∈ t, x.isWhitespace = false := by
    intro x hx
    obtain ⟨y, hxy, z, hyz⟩ := hmem x hx
    by_cases hc : (y.isAlphanum || y == '_') = true
    · rw [hxy, if_pos hc]
      have hc' : y.isAlphanum = true ∨ y = '_' := by simpa using hc
      rcases hc' with h | h
      · exact alnum_not_ws y h
      · rw [h]
        decide
    · rw [hxy, if_neg hc]
      decide
  have htl : ∀ x ∈ t, Char.toLower x = x := by
    intro x hx
    obtain ⟨y, hxy, z, hyz⟩ := hmem x hx
    by_cases hc : (y.isAlphanum || y == '_') = true
    · rw [hxy, if_pos hc, hyz]
      exact toLower_toLower z
    · rw [hxy, if_neg hc]
      decide
  have hrepl : ∀ x ∈ t,
      (if x.isAlphanum || x == '_' then x else '_') = x := by
    intro x hx
    obtain ⟨y, hxy, z, hyz⟩ := hmem x hx
    by_cases hc : (y.isAlphanum || y == '_') = true
    · rw [hxy, if_pos hc]
      exact if_pos hc
    · rw [hxy, if_neg hc]
      decide
  rw [trimChars_all_not_ws t hws]
  rw [map_id_of_mem Char.toLower t htl]
  rw [map_id_of_mem _ t hrepl]

/-- C10: Empty-row elision.  Every data row present in the sequence emitted
by any push or finalize call — from any session, whatever its header mode —
has at least one field that does not trim to the empty string; a completed
row whose fields all trim to empty is never emitted. -/
theorem c10_empty_row_elision :
    (∀ (s : CsvSession) (data : List Nat) (rows : List (List String))
        (s' : CsvSession), s.push_bytes data = .ok (rows, s') →
      ∀ row ∈ rows, ∃ f ∈ row, strTrim f ≠ "") ∧
    (∀ (s : CsvSession) (rows : List (List String)) (s' : CsvSession),
      s.finish_rows = .ok (rows, s') →
      ∀ row ∈ rows, ∃ f ∈ row, strTrim f ≠ "") := by
  constructor
  · intro s data rows s' h
    unfold CsvSession.push_bytes at h
    exact drain_records_filter { s with buffer := s.buffer ++ data } false rows s' h
  · intro s rows s' h
    simp only [CsvSession.finish_rows] at h
    by_cases hc : s.buffer ≠ [] ∧ s.buffer.getLast? ≠ some 10
    · rw [if_pos hc] at h
      exact drain_records_filter { s with buffer := s.buffer ++ [10] } true rows s' h
    · rw [if_neg hc] at h
      exact drain_records_filter s true rows s' h

/-- C10 witness: pushing `" , \n x\n"` emits only the second record's row
`[" x"]` (the first, all-blank record is elided), and that emitted row
indeed has a field that does not trim to empty. -/
theorem c10_empty_row_elision_witness :
    ∃ f ∈ ([" x"] : List String), strTrim f ≠ "" :=
  c10_empty_row_elision.1 (CsvSession.new 44 false) (strBytes (" , \n x\n"))
    [[" x"]] (CsvSession.new 44 false) rfl [" x"] (by simp)
